import Mathlib

/-!
Verification of the arxiv-researcher summarization pipeline
(`src/arxiv_researcher/app.py`).

The embedding models:
* the acquisition / conversion front end (`download_pdf_from_url`,
  `pdf_to_mmd`) as functions over an explicit `World` describing the
  outcome of the external HTTP request and of the Nougat OCR run;
* the markdown structure splitter (an external langchain component,
  modelled from the spec);
* the streaming summary generators (`generate_individual_summary`,
  `generate_final_summary`) as functions from the section list and the
  streamed chunk lists to the list of yielded values, in yield order.

Machine strings are Lean `String`s (`structure String where data : List Char`
in this toolchain); python `str.replace` is embedded as an executable
left-to-right scan.
-/

namespace ArxivResearcher

/-! ## String groundwork -/

theorem strData_append (a b : String) : (a ++ b).data = a.data ++ b.data :=
  String.data_append a b

theorem strExt {a b : String} (h : a.data = b.data) : a = b := by
  ext1; exact h

theorem strAppend_assoc (a b c : String) : a ++ b ++ c = a ++ (b ++ c) := by
  apply strExt; simp [strData_append]

theorem strAppend_empty (a : String) : a ++ "" = a := by
  apply strExt; simp [strData_append]

theorem strEmpty_append (a : String) : "" ++ a = a := by
  apply strExt; simp [strData_append]

theorem strLength_data_append (a b : String) :
    (a ++ b).data.length = a.data.length + b.data.length := by
  simp [strData_append]

/-- Concatenation of a list of strings, in order. -/
def strJoin : List String → String
  | [] => ""
  | s :: rest => s ++ strJoin rest

theorem strJoin_append (l m : List String) :
    strJoin (l ++ m) = strJoin l ++ strJoin m := by
  induction l with
  | nil => simp [strJoin, strEmpty_append]
  | cons s rest ih => simp [strJoin, ih, strAppend_assoc]

/-- Split a character list at newline characters (the pieces do not contain
the separator), mirroring python's `text.split("\n")`. -/
def splitLines : List Char → List (List Char)
  | [] => [[]]
  | c :: cs =>
    if c = '\n' then [] :: splitLines cs
    else
      match splitLines cs with
      | [] => [[c]]
      | piece :: rest => (c :: piece) :: rest

theorem splitLines_ne_nil (l : List Char) : splitLines l ≠ [] := by
  induction l with
  | nil => simp [splitLines]
  | cons c cs ih =>
    by_cases h : c = '\n'
    · simp [splitLines, h]
    · simp only [splitLines, if_neg h]
      cases hs : splitLines cs with
      | nil => simp
      | cons piece rest => simp

theorem splitLines_no_newline (l : List Char) :
    ∀ piece ∈ splitLines l, '\n' ∉ piece := by
  induction l with
  | nil =>
    intro piece hp
    simp [splitLines] at hp
    simp [hp]
  | cons c cs ih =>
    intro piece hp
    by_cases h : c = '\n'
    · simp [splitLines, h] at hp
      rcases hp with hp | hp
      · simp [hp]
      · exact ih piece hp
    · simp only [splitLines, if_neg h] at hp
      cases hs : splitLines cs with
      | nil => exact absurd hs (splitLines_ne_nil cs)
      | cons q rest =>
        rw [hs] at hp
        rcases List.mem_cons.mp hp with hp | hp
        · subst hp
          intro hmem
          rcases List.mem_cons.mp hmem with hc | hc
          · exact h hc.symm
          · exact ih q (by rw [hs]; exact List.mem_cons_self q rest) hc
        · exact ih piece (by rw [hs]; exact List.mem_cons_of_mem q hp)

theorem splitLines_append_newline (xs ys : List Char) (h : '\n' ∉ xs) :
    splitLines (xs ++ '\n' :: ys) = xs :: splitLines ys := by
  induction xs with
  | nil => simp [splitLines]
  | cons c cs ih =>
    have hc : c ≠ '\n' := by
      intro hcon; exact h (by simp [hcon])
    have hcs : '\n' ∉ cs := by
      intro hcon; exact h (List.mem_cons_of_mem c hcon)
    have ihr := ih hcs
    simp only [List.cons_append, splitLines, if_neg hc, List.append_eq]
    rw [ihr]

/-- The lines of a string, mirroring python's `text.split("\n")`. -/
def splitLinesStr (s : String) : List String :=
  (splitLines s.data).map (fun l => ⟨l⟩)

/-- Intercalate the lines with newline characters (inverse of
`splitLinesStr`). -/
def joinLines : List String → String
  | [] => ""
  | [l] => l
  | l :: rest => l ++ "\n" ++ joinLines rest

theorem joinLines_splitLines (d : List Char) :
    (joinLines ((splitLines d).map (fun l => ⟨l⟩))).data = d := by
  induction d with
  | nil => simp [splitLines, joinLines]
  | cons c cs ih =>
    by_cases h : c = '\n'
    · subst h
      rw [show splitLines ('\n' :: cs) = [] :: splitLines cs from by simp [splitLines]]
      simp only [List.map_cons]
      cases hm : (splitLines cs).map (fun l : List Char => (⟨l⟩ : String)) with
      | nil =>
        exact absurd (List.map_eq_nil_iff.mp hm) (splitLines_ne_nil cs)
      | cons q rest =>
        rw [hm] at ih
        show ((⟨[]⟩ : String) ++ "\n" ++ joinLines (q :: rest)).data = '\n' :: cs
        rw [strData_append, strData_append, ih]
        rfl
    · simp only [splitLines, if_neg h]
      cases hsp : splitLines cs with
      | nil => exact absurd hsp (splitLines_ne_nil cs)
      | cons piece rest =>
        rw [hsp] at ih
        cases rest with
        | nil =>
          simp only [List.map_cons, List.map_nil] at ih ⊢
          show (c :: piece) = c :: cs
          have hp : piece = cs := by simpa [joinLines] using ih
          rw [hp]
        | cons piece2 rest2 =>
          simp only [List.map_cons] at ih ⊢
          show ((⟨c :: piece⟩ : String) ++ "\n" ++
              joinLines ((⟨piece2⟩ : String) :: rest2.map (fun l => ⟨l⟩))).data = c :: cs
          have hstep : ((⟨piece⟩ : String) ++ "\n" ++
              joinLines ((⟨piece2⟩ : String) :: rest2.map (fun l => ⟨l⟩))).data = cs := ih
          rw [strData_append, strData_append] at hstep ⊢
          show (c :: piece) ++ "\n".data ++ _ = c :: cs
          rw [← hstep]
          rfl

theorem joinLines_splitLinesStr (s : String) : joinLines (splitLinesStr s) = s := by
  apply strExt
  exact joinLines_splitLines s.data

/-! ## Structure Splitter

`generate_individual_summary` delegates splitting to langchain's
`MarkdownHeaderTextSplitter` configured with the separators `#`, `##`, `###`
(app.py lines 133-142); that component's code is not part of this
repository, so it is modelled from the spec. -/

/-- The header path: the most recently seen header text at each of levels
1-3, carried forward until overwritten (spec section 3). -/
structure HeaderPath where
  h1 : Option String
  h2 : Option String
  h3 : Option String
deriving DecidableEq

/-- The header path with no level tracked. -/
def emptyPath : HeaderPath := ⟨none, none, none⟩

/-- A section produced by the Structure Splitter: a header path and the
body lines of the section (spec section 3). -/
structure Sec where
  path : HeaderPath
  body : List String
deriving DecidableEq

/-- Modelled from the spec: recognize a markdown header line of level 1-3
(a run of 1-3 hash marks followed by a space), returning the level and the
header text. Deeper hash runs such as `####` are body content, matching the
splitter configuration that splits only on `#`, `##`, `###`. -/
def parseHeader (line : String) : Option (Nat × String) :=
  match line.data with
  | '#' :: '#' :: '#' :: ' ' :: rest => some (3, ⟨rest⟩)
  | '#' :: '#' :: ' ' :: rest => some (2, ⟨rest⟩)
  | '#' :: ' ' :: rest => some (1, ⟨rest⟩)
  | _ => none

/-- Modelled from the spec: seeing a header of level `lvl` records its text
at that level and clears every deeper level, preserving shallower levels
(spec sections 4.1 and 8.3). -/
def updatePath (p : HeaderPath) (lvl : Nat) (text : String) : HeaderPath :=
  if lvl = 1 then ⟨some text, none, none⟩
  else if lvl = 2 then ⟨p.h1, some text, none⟩
  else ⟨p.h1, p.h2, some text⟩

/-- Modelled from the spec: walk the lines; every header line of level 1-3
closes the current section and opens a new one with the updated header
path; all other lines belong to the current section's body
(spec section 4.1). -/
def splitSectionsAux (p : HeaderPath) (acc : List String) :
    List String → List Sec
  | [] => [⟨p, acc⟩]
  | line :: rest =>
    match parseHeader line with
    | some lt => ⟨p, acc⟩ :: splitSectionsAux (updatePath p lt.1 lt.2) [] rest
    | none => splitSectionsAux p (acc ++ [line]) rest

/-- Modelled from the spec: the Structure Splitter, absent from this
repository (langchain's `MarkdownHeaderTextSplitter`). Splits the document
into lines and groups them into header-scoped sections; content preceding
the first header forms a leading section with an empty header path
(spec section 4.1). -/
def split_text (doc : String) : List Sec :=
  splitSectionsAux emptyPath [] (splitLinesStr doc)

theorem splitSectionsAux_ne_nil (p : HeaderPath) (acc lines : List String) :
    splitSectionsAux p acc lines ≠ [] := by
  induction lines generalizing p acc with
  | nil => simp [splitSectionsAux]
  | cons line rest ih =>
    cases h : parseHeader line with
    | some lt => simp [splitSectionsAux, h]
    | none => simpa [splitSectionsAux, h] using ih p (acc ++ [line])

/-- Concatenating all bodies recovers, in order, exactly the non-header
lines fed to the splitter. -/
theorem splitSectionsAux_bodies (p : HeaderPath) (acc lines : List String) :
    ((splitSectionsAux p acc lines).map Sec.body).flatten =
      acc ++ lines.filter (fun l => (parseHeader l).isNone) := by
  induction lines generalizing p acc with
  | nil => simp [splitSectionsAux]
  | cons line rest ih =>
    cases h : parseHeader line with
    | some lt =>
      simp only [splitSectionsAux, h, List.map_cons, List.flatten_cons,
        List.filter_cons, Option.isNone_some]
      rw [ih]
      simp
    | none =>
      simp only [splitSectionsAux, h, List.filter_cons, Option.isNone_none]
      rw [ih]
      simp

/-- A splitter run over header-free lines yields the single section
collecting everything. -/
theorem splitSectionsAux_no_header (p : HeaderPath) (acc lines : List String)
    (h : ∀ l ∈ lines, parseHeader l = none) :
    splitSectionsAux p acc lines = [⟨p, acc ++ lines⟩] := by
  induction lines generalizing acc with
  | nil => simp [splitSectionsAux]
  | cons line rest ih =>
    have hl : parseHeader line = none := h line (List.mem_cons_self line rest)
    have hrest : ∀ l ∈ rest, parseHeader l = none :=
      fun l hm => h l (List.mem_cons_of_mem line hm)
    simp only [splitSectionsAux, hl]
    rw [ih (acc ++ [line]) hrest]
    simp

/-! ## Section Aggregator and streaming generators
(app.py lines 132-177) -/

/-- The section's header path as an ordered key-value list, levels in
increasing order, mirroring the `split.metadata` dictionary consumed by the
loop at app.py lines 153-159. -/
def pathList (p : HeaderPath) : List (Nat × String) :=
  (match p.h1 with | some t => [(1, t)] | none => []) ++
  (match p.h2 with | some t => [(2, t)] | none => []) ++
  (match p.h3 with | some t => [(3, t)] | none => [])

/-- The `header_to_append` loop of app.py lines 152-159: starting from the
empty string, each metadata key overwrites the candidate header line with
the markdown line for its level. -/
def header_to_append (metadata : List (Nat × String)) : String :=
  metadata.foldl (fun hta kv =>
    if kv.1 = 3 then "\n### " ++ kv.2 ++ "\n"
    else if kv.1 = 2 then "\n## " ++ kv.2 ++ "\n"
    else if kv.1 = 1 then "\n# " ++ kv.2 ++ "\n"
    else hta) ""

/-- The deepest header level present in a header path, with its text. -/
def deepestEntry (p : HeaderPath) : Option (Nat × String) :=
  match p.h3 with
  | some t => some (3, t)
  | none =>
    match p.h2 with
    | some t => some (2, t)
    | none =>
      match p.h1 with
      | some t => some (1, t)
      | none => none

/-- The markdown header line emitted for a level (app.py lines 154-159). -/
def headerLine (lvl : Nat) (t : String) : String :=
  if lvl = 1 then "\n# " ++ t ++ "\n"
  else if lvl = 2 then "\n## " ++ t ++ "\n"
  else "\n### " ++ t ++ "\n"

/-- The inner streaming loop of app.py lines 162-166: each arriving chunk
is appended to the running summary and the updated summary is yielded. -/
def emitChunks (acc : String) : List String → List String
  | [] => []
  | c :: cs => (acc ++ c) :: emitChunks (acc ++ c) cs

/-- The full text a section contributes to the running summary: its
reconstructed header followed by its completed summary. -/
def sectionFull (sec : Sec) (chunks : List String) : String :=
  header_to_append (pathList sec.path) ++ strJoin chunks

/-- The outer loop of app.py lines 148-169: for each section append the
reconstructed header to the running summary, then stream the section's
chunks, yielding the running summary after each chunk. Returns all yielded
values in order. -/
def runSections (acc : String) : List (Sec × List String) → List String
  | [] => []
  | (sec, chunks) :: rest =>
    emitChunks (acc ++ header_to_append (pathList sec.path)) chunks ++
      runSections (acc ++ sectionFull sec chunks) rest

/-- Each section paired with the chunk stream the summary chain produces
for it (`individual_summary_chain.stream`, an external collaborator
modelled as an oracle from the section to its chunk list). -/
def sectionStreamPairs (oracle : Sec → List String) (parsed : String) :
    List (Sec × List String) :=
  (split_text parsed).map (fun s => (s, oracle s))

/-- `generate_individual_summary` (app.py lines 132-169): the list of
values yielded, in yield order, when summarizing `parsed` with the given
stream oracle. -/
def generate_individual_summary (oracle : Sec → List String)
    (parsed : String) : List String :=
  runSections "" (sectionStreamPairs oracle parsed)

/-- `generate_final_summary` (app.py lines 172-177): the list of values
yielded, in yield order, given the chunk stream of the final summary
chain. -/
def generate_final_summary (chunks : List String) : List String :=
  emitChunks "" chunks

/-- Number of yields produced before section `k` starts streaming: the
total chunk count of the first `k` sections. -/
def emOffset : List (Sec × List String) → Nat → Nat
  | _, 0 => 0
  | [], _ + 1 => 0
  | p :: rest, k + 1 => p.2.length + emOffset rest k

/-- The Combined Summary Document after the first `k` sections have
completed: the concatenation, in document order, of reconstructed header
plus completed summary for sections `1..k`. -/
def combinedUpTo : List (Sec × List String) → Nat → String
  | _, 0 => ""
  | [], _ + 1 => ""
  | p :: rest, k + 1 => sectionFull p.1 p.2 ++ combinedUpTo rest k

/-- Does a line (as a character list) carry a markdown header marker? -/
def isHashLine (l : List Char) : Bool :=
  match l with
  | '#' :: _ => true
  | _ => false

/-- Number of lines of a string that start with a markdown header
marker. -/
def headerLineCount (s : String) : Nat :=
  ((splitLines s.data).filter isHashLine).length

/-! ## Emission indexing lemmas -/

theorem emitChunks_length (acc : String) (cs : List String) :
    (emitChunks acc cs).length = cs.length := by
  induction cs generalizing acc with
  | nil => rfl
  | cons c rest ih => simp [emitChunks, ih]

theorem emitChunks_getElem? (acc : String) (cs : List String) (j : Nat)
    (hj : j < cs.length) :
    (emitChunks acc cs)[j]? = some (acc ++ strJoin (cs.take (j + 1))) := by
  induction cs generalizing acc j with
  | nil => simp at hj
  | cons c rest ih =>
    cases j with
    | zero => simp [emitChunks, strJoin, strAppend_empty]
    | succ j =>
      have hj2 : j < rest.length := by simpa using hj
      simp only [emitChunks, List.getElem?_cons_succ, ih (acc ++ c) j hj2,
        List.take_succ_cons, strJoin, strAppend_assoc]

theorem combinedUpTo_succ (l : List (Sec × List String)) (k : Nat)
    (sec : Sec) (chunks : List String) (h : l[k]? = some (sec, chunks)) :
    combinedUpTo l (k + 1) = combinedUpTo l k ++ sectionFull sec chunks := by
  induction l generalizing k with
  | nil => simp at h
  | cons p rest ih =>
    cases k with
    | zero =>
      simp only [List.getElem?_cons_zero, Option.some_inj] at h
      subst h
      simp [combinedUpTo, strEmpty_append, strAppend_empty]
    | succ k =>
      simp only [List.getElem?_cons_succ] at h
      show sectionFull p.1 p.2 ++ combinedUpTo rest (k + 1) =
        sectionFull p.1 p.2 ++ combinedUpTo rest k ++ sectionFull sec chunks
      rw [ih k h, strAppend_assoc]

/-- The yield of `runSections` observed after section `k` has streamed `j`
chunks: the running prefix, the combined text of the completed sections
before `k`, section `k`'s reconstructed header, and the join of its first
`j` chunks. -/
theorem runSections_getElem? (l : List (Sec × List String)) (acc : String)
    (k : Nat) (sec : Sec) (chunks : List String)
    (hk : l[k]? = some (sec, chunks)) (j : Nat) (hj1 : 1 ≤ j)
    (hj2 : j ≤ chunks.length) :
    (runSections acc l)[emOffset l k + j - 1]? =
      some (acc ++ combinedUpTo l k ++
        header_to_append (pathList sec.path) ++ strJoin (chunks.take j)) := by
  induction l generalizing acc k with
  | nil => simp at hk
  | cons p rest ih =>
    cases k with
    | zero =>
      simp only [List.getElem?_cons_zero, Option.some_inj] at hk
      subst hk
      have hlt : j - 1 < (emitChunks (acc ++ header_to_append (pathList sec.path)) chunks).length := by
        rw [emitChunks_length]; omega
      show (emitChunks (acc ++ header_to_append (pathList sec.path)) chunks ++
        runSections (acc ++ sectionFull sec chunks) rest)[emOffset ((sec, chunks) :: rest) 0 + j - 1]? = _
      have hoff : emOffset ((sec, chunks) :: rest) 0 + j - 1 = j - 1 := by
        simp [emOffset]
      rw [hoff, List.getElem?_append_left hlt,
        emitChunks_getElem? _ _ (j - 1) (by omega)]
      have hj3 : j - 1 + 1 = j := by omega
      rw [hj3]
      show _ = some (acc ++ combinedUpTo ((sec, chunks) :: rest) 0 ++ _ ++ _)
      simp only [combinedUpTo, strAppend_empty, strAppend_assoc]
    | succ k =>
      simp only [List.getElem?_cons_succ] at hk
      show (emitChunks (acc ++ header_to_append (pathList p.1.path)) p.2 ++
        runSections (acc ++ sectionFull p.1 p.2) rest)[emOffset (p :: rest) (k + 1) + j - 1]? = _
      have hoff : emOffset (p :: rest) (k + 1) + j - 1 =
          p.2.length + (emOffset rest k + j - 1) := by
        show p.2.length + emOffset rest k + j - 1 = _
        omega
      have hge : (emitChunks (acc ++ header_to_append (pathList p.1.path)) p.2).length ≤
          emOffset (p :: rest) (k + 1) + j - 1 := by
        rw [emitChunks_length, hoff]; omega
      rw [List.getElem?_append_right hge, emitChunks_length, hoff,
        Nat.add_sub_cancel_left, ih (acc ++ sectionFull p.1 p.2) k hk]
      show some _ = some (acc ++ (sectionFull p.1 p.2 ++ combinedUpTo rest k) ++ _ ++ _)
      simp only [strAppend_assoc]

/-! ## Monotone growth lemmas -/

theorem strData_ne_nil {c : String} (h : c ≠ "") : c.data ≠ [] := by
  intro hd
  exact h (strExt (by rw [hd]))

theorem emitChunks_mem_pre (acc : String) (cs : List String) :
    ∀ e ∈ emitChunks acc cs, acc.data <+: e.data := by
  induction cs generalizing acc with
  | nil => intro e he; simp [emitChunks] at he
  | cons c rest ih =>
    intro e he
    rcases List.mem_cons.mp he with he | he
    · subst he
      rw [strData_append]
      exact List.prefix_append acc.data c.data
    · have h1 : (acc ++ c).data <+: e.data := ih (acc ++ c) e he
      have h2 : acc.data <+: (acc ++ c).data := by
        rw [strData_append]; exact List.prefix_append acc.data c.data
      exact h2.trans h1

theorem emitChunks_mem_pre_len (acc : String) (cs : List String)
    (hne : ∀ c ∈ cs, c ≠ "") :
    ∀ e ∈ emitChunks acc cs,
      acc.data <+: e.data ∧ acc.data.length < e.data.length := by
  induction cs generalizing acc with
  | nil => intro e he; simp [emitChunks] at he
  | cons c rest ih =>
    intro e he
    have hc : c ≠ "" := hne c (List.mem_cons_self c rest)
    have hclen : 0 < c.data.length :=
      List.length_pos.mpr (strData_ne_nil hc)
    rcases List.mem_cons.mp he with he | he
    · subst he
      constructor
      · rw [strData_append]; exact List.prefix_append acc.data c.data
      · rw [strLength_data_append]; omega
    · have ihr := ih (acc ++ c)
        (fun x hx => hne x (List.mem_cons_of_mem c hx)) e he
      have h2 : acc.data <+: (acc ++ c).data := by
        rw [strData_append]; exact List.prefix_append acc.data c.data
      refine ⟨h2.trans ihr.1, ?_⟩
      have : acc.data.length < (acc ++ c).data.length := by
        rw [strLength_data_append]; omega
      omega

theorem emitChunks_getLast? (acc : String) (cs : List String) (h : cs ≠ []) :
    (emitChunks acc cs).getLast? = some (acc ++ strJoin cs) := by
  induction cs generalizing acc with
  | nil => exact absurd rfl h
  | cons c rest ih =>
    cases rest with
    | nil =>
      show [acc ++ c].getLast? = some (acc ++ strJoin [c])
      simp [strJoin, strAppend_empty]
    | cons c2 rest2 =>
      show ((acc ++ c) :: (acc ++ c ++ c2) ::
        emitChunks (acc ++ c ++ c2) rest2).getLast? = _
      rw [List.getLast?_cons_cons]
      have hrec := ih (acc ++ c) (by simp)
      rw [show (emitChunks (acc ++ c) (c2 :: rest2)) =
        (acc ++ c ++ c2) :: emitChunks (acc ++ c ++ c2) rest2 from rfl] at hrec
      rw [hrec]
      simp [strJoin, strAppend_assoc]

theorem runSections_mem_pre (l : List (Sec × List String)) (acc : String) :
    ∀ e ∈ runSections acc l, acc.data <+: e.data := by
  induction l generalizing acc with
  | nil => intro e he; simp [runSections] at he
  | cons p rest ih =>
    intro e he
    rcases List.mem_append.mp he with he | he
    · have h1 := emitChunks_mem_pre
        (acc ++ header_to_append (pathList p.1.path)) p.2 e he
      have h2 : acc.data <+: (acc ++ header_to_append (pathList p.1.path)).data := by
        rw [strData_append]; exact List.prefix_append _ _
      exact h2.trans h1
    · have h1 := ih (acc ++ sectionFull p.1 p.2) e he
      have h2 : acc.data <+: (acc ++ sectionFull p.1 p.2).data := by
        rw [strData_append]; exact List.prefix_append _ _
      exact h2.trans h1

theorem runSections_mem_pre_len (l : List (Sec × List String)) (acc : String)
    (hne : ∀ pr ∈ l, ∀ c ∈ pr.2, c ≠ "") :
    ∀ e ∈ runSections acc l,
      acc.data <+: e.data ∧ acc.data.length < e.data.length := by
  induction l generalizing acc with
  | nil => intro e he; simp [runSections] at he
  | cons p rest ih =>
    intro e he
    rcases List.mem_append.mp he with he | he
    · have h1 := emitChunks_mem_pre_len
        (acc ++ header_to_append (pathList p.1.path)) p.2
        (hne p (List.mem_cons_self p rest)) e he
      have h2 : acc.data <+: (acc ++ header_to_append (pathList p.1.path)).data := by
        rw [strData_append]; exact List.prefix_append _ _
      have h3 : acc.data.length ≤
          (acc ++ header_to_append (pathList p.1.path)).data.length := by
        rw [strLength_data_append]; omega
      exact ⟨h2.trans h1.1, by omega⟩
    · have h1 := ih (acc ++ sectionFull p.1 p.2)
        (fun q hq => hne q (List.mem_cons_of_mem p hq)) e he
      have h2 : acc.data <+: (acc ++ sectionFull p.1 p.2).data := by
        rw [strData_append]; exact List.prefix_append _ _
      have h3 : acc.data.length ≤ (acc ++ sectionFull p.1 p.2).data.length := by
        rw [strLength_data_append]; omega
      exact ⟨h2.trans h1.1, by omega⟩

theorem emitChunks_chain (acc : String) (cs : List String) :
    List.Chain' (fun a b : String => a.data <+: b.data) (emitChunks acc cs) := by
  induction cs generalizing acc with
  | nil => simp [emitChunks]
  | cons c rest ih =>
    refine List.chain'_cons'.mpr ⟨?_, ih (acc ++ c)⟩
    intro y hy
    exact emitChunks_mem_pre (acc ++ c) rest y (List.mem_of_mem_head? hy)

theorem emitChunks_chain_strict (acc : String) (cs : List String)
    (hne : ∀ c ∈ cs, c ≠ "") :
    List.Chain' (fun a b : String =>
      a.data <+: b.data ∧ a.data.length < b.data.length) (emitChunks acc cs) := by
  induction cs generalizing acc with
  | nil => simp [emitChunks]
  | cons c rest ih =>
    refine List.chain'_cons'.mpr
      ⟨?_, ih (acc ++ c) (fun x hx => hne x (List.mem_cons_of_mem c hx))⟩
    intro y hy
    exact emitChunks_mem_pre_len (acc ++ c) rest
      (fun x hx => hne x (List.mem_cons_of_mem c hx)) y (List.mem_of_mem_head? hy)

theorem runSections_chain (l : List (Sec × List String)) (acc : String) :
    List.Chain' (fun a b : String => a.data <+: b.data) (runSections acc l) := by
  induction l generalizing acc with
  | nil => simp [runSections]
  | cons p rest ih =>
    refine List.Chain'.append (emitChunks_chain _ _) (ih _) ?_
    intro x hx y hy
    cases hcs : p.2 with
    | nil => rw [hcs] at hx; simp [emitChunks] at hx
    | cons c0 cs0 =>
      rw [hcs, emitChunks_getLast? _ _ (by simp)] at hx
      have hx2 : x = acc ++ sectionFull p.1 p.2 := by
        have := Option.some_inj.mp hx
        rw [← this, sectionFull, hcs, strAppend_assoc]
      have hy2 := runSections_mem_pre rest (acc ++ sectionFull p.1 p.2) y
        (List.mem_of_mem_head? hy)
      rw [hx2]
      exact hy2

theorem runSections_chain_strict (l : List (Sec × List String)) (acc : String)
    (hne : ∀ pr ∈ l, ∀ c ∈ pr.2, c ≠ "") :
    List.Chain' (fun a b : String =>
      a.data <+: b.data ∧ a.data.length < b.data.length) (runSections acc l) := by
  induction l generalizing acc with
  | nil => simp [runSections]
  | cons p rest ih =>
    refine List.Chain'.append
      (emitChunks_chain_strict _ _ (hne p (List.mem_cons_self p rest)))
      (ih _ (fun q hq => hne q (List.mem_cons_of_mem p hq))) ?_
    intro x hx y hy
    cases hcs : p.2 with
    | nil => rw [hcs] at hx; simp [emitChunks] at hx
    | cons c0 cs0 =>
      rw [hcs, emitChunks_getLast? _ _ (by simp)] at hx
      have hx2 : x = acc ++ sectionFull p.1 p.2 := by
        have := Option.some_inj.mp hx
        rw [← this, sectionFull, hcs, strAppend_assoc]
      have hy2 := runSections_mem_pre_len rest (acc ++ sectionFull p.1 p.2)
        (fun q hq => hne q (List.mem_cons_of_mem p hq)) y
        (List.mem_of_mem_head? hy)
      rw [hx2]
      exact hy2

/-! ## Header reconstruction lemmas -/

/-- Every header text tracked by a path is newline-free. -/
def PathOk (p : HeaderPath) : Prop :=
  (∀ t, p.h1 = some t → '\n' ∉ t.data) ∧
  (∀ t, p.h2 = some t → '\n' ∉ t.data) ∧
  (∀ t, p.h3 = some t → '\n' ∉ t.data)

theorem parseHeader_no_newline (line : String) (lvl : Nat) (t : String)
    (hp : parseHeader line = some (lvl, t)) (hn : '\n' ∉ line.data) :
    '\n' ∉ t.data := by
  unfold parseHeader at hp
  split at hp <;> simp_all <;> (rw [← hp.2]; exact hn)

theorem pathOk_empty : PathOk emptyPath := by
  refine ⟨?_, ?_, ?_⟩ <;> intro t ht <;> simp [emptyPath] at ht

theorem pathOk_update (p : HeaderPath) (lvl : Nat) (t : String)
    (hp : PathOk p) (ht : '\n' ∉ t.data) : PathOk (updatePath p lvl t) := by
  obtain ⟨hp1, hp2, hp3⟩ := hp
  unfold updatePath
  split
  · exact ⟨fun s hs => by simp at hs; rw [← hs]; exact ht,
      fun s hs => by simp at hs, fun s hs => by simp at hs⟩
  · split
    · exact ⟨hp1, fun s hs => by simp at hs; rw [← hs]; exact ht,
        fun s hs => by simp at hs⟩
    · exact ⟨hp1, hp2, fun s hs => by simp at hs; rw [← hs]; exact ht⟩

theorem splitSectionsAux_pathOk (lines : List String) (p : HeaderPath)
    (acc : List String) (hp : PathOk p)
    (hl : ∀ l ∈ lines, '\n' ∉ l.data) :
    ∀ sec ∈ splitSectionsAux p acc lines, PathOk sec.path := by
  induction lines generalizing p acc with
  | nil =>
    intro sec hs
    simp only [splitSectionsAux, List.mem_singleton] at hs
    rw [hs]
    exact hp
  | cons line rest ih =>
    intro sec hs
    have hrest : ∀ l ∈ rest, '\n' ∉ l.data :=
      fun l hm => hl l (List.mem_cons_of_mem line hm)
    cases h : parseHeader line with
    | some lt =>
      simp only [splitSectionsAux, h] at hs
      rcases List.mem_cons.mp hs with hs | hs
      · rw [hs]; exact hp
      · exact ih (updatePath p lt.1 lt.2) []
          (pathOk_update p lt.1 lt.2 hp
            (parseHeader_no_newline line lt.1 lt.2
              (by rw [h]) (hl line (List.mem_cons_self line rest))))
          hrest sec hs
    | none =>
      simp only [splitSectionsAux, h] at hs
      exact ih p (acc ++ [line]) hp hrest sec hs

theorem split_text_pathOk (doc : String) :
    ∀ sec ∈ split_text doc, PathOk sec.path := by
  apply splitSectionsAux_pathOk _ _ _ pathOk_empty
  intro l hm
  unfold splitLinesStr at hm
  rcases List.mem_map.mp hm with ⟨piece, hpiece, hrw⟩
  rw [← hrw]
  exact splitLines_no_newline doc.data piece hpiece

theorem deepestEntry_no_newline (p : HeaderPath) (lvl : Nat) (t : String)
    (hp : PathOk p) (hd : deepestEntry p = some (lvl, t)) : '\n' ∉ t.data := by
  obtain ⟨hp1, hp2, hp3⟩ := hp
  unfold deepestEntry at hd
  split at hd
  · rename_i s hs
    simp only [Option.some_inj, Prod.mk.injEq] at hd
    exact hd.2 ▸ hp3 s hs
  · split at hd
    · rename_i s hs
      simp only [Option.some_inj, Prod.mk.injEq] at hd
      exact hd.2 ▸ hp2 s hs
    · split at hd
      · rename_i s hs
        simp only [Option.some_inj, Prod.mk.injEq] at hd
        exact hd.2 ▸ hp1 s hs
      · simp at hd

theorem deepestEntry_level (p : HeaderPath) (lvl : Nat) (t : String)
    (hd : deepestEntry p = some (lvl, t)) : lvl = 1 ∨ lvl = 2 ∨ lvl = 3 := by
  unfold deepestEntry at hd
  split at hd
  · simp only [Option.some_inj, Prod.mk.injEq] at hd
    omega
  · split at hd
    · simp only [Option.some_inj, Prod.mk.injEq] at hd
      omega
    · split at hd
      · simp only [Option.some_inj, Prod.mk.injEq] at hd
        omega
      · simp at hd

/-- The overwrite loop keeps only the deepest level of the path: the
reconstructed header is the markdown line of the deepest tracked header. -/
theorem header_to_append_deepest (p : HeaderPath) (lvl : Nat) (t : String)
    (hd : deepestEntry p = some (lvl, t)) :
    header_to_append (pathList p) = headerLine lvl t := by
  obtain ⟨h1, h2, h3⟩ := p
  cases h1 <;> cases h2 <;> cases h3 <;>
    simp_all [deepestEntry, pathList, header_to_append, headerLine] <;>
    simp [← hd.1, ← hd.2]

/-- Every level present in the path is at most the deepest one. -/
theorem deepestEntry_max (p : HeaderPath) (lvl : Nat) (t : String)
    (hd : deepestEntry p = some (lvl, t)) :
    ∀ kv ∈ pathList p, kv.1 ≤ lvl := by
  obtain ⟨h1, h2, h3⟩ := p
  cases h1 <;> cases h2 <;> cases h3 <;>
    simp_all [deepestEntry, pathList] <;> omega

theorem headerLineCount_headerLine (lvl : Nat) (t : String)
    (hlvl : lvl = 1 ∨ lvl = 2 ∨ lvl = 3) (hn : '\n' ∉ t.data) :
    headerLineCount (headerLine lvl t) = 1 := by
  have key : ∀ pre : List Char, pre ≠ [] → pre.head? = some '#' → '\n' ∉ pre →
      ((splitLines ('\n' :: (pre ++ t.data ++ ['\n']))).filter isHashLine).length = 1 := by
    intro pre hpre hhead hprenn
    rw [show ('\n' :: (pre ++ t.data ++ ['\n'])) =
      '\n' :: ((pre ++ t.data) ++ '\n' :: []) from by simp]
    rw [show splitLines ('\n' :: ((pre ++ t.data) ++ '\n' :: [])) =
      [] :: splitLines ((pre ++ t.data) ++ '\n' :: []) from by simp [splitLines]]
    rw [splitLines_append_newline (pre ++ t.data) []
      (by intro hm; rcases List.mem_append.mp hm with hm | hm
          · exact hprenn hm
          · exact hn hm)]
    cases pre with
    | nil => exact absurd rfl hpre
    | cons c0 cpre =>
      have hc0 : c0 = '#' := by simpa using hhead
      simp [splitLines, isHashLine, hc0]
  rcases hlvl with h | h | h <;> subst h
  · have hdata : (headerLine 1 t).data = '\n' :: (['#', ' '] ++ t.data ++ ['\n']) := by
      show ("\n# " ++ t ++ "\n").data = _
      rw [strData_append, strData_append]
      rfl
    unfold headerLineCount
    rw [hdata]
    exact key ['#', ' '] (by simp) rfl (by decide)
  · have hdata : (headerLine 2 t).data = '\n' :: (['#', '#', ' '] ++ t.data ++ ['\n']) := by
      show ("\n## " ++ t ++ "\n").data = _
      rw [strData_append, strData_append]
      rfl
    unfold headerLineCount
    rw [hdata]
    exact key ['#', '#', ' '] (by simp) rfl (by decide)
  · have hdata : (headerLine 3 t).data = '\n' :: (['#', '#', '#', ' '] ++ t.data ++ ['\n']) := by
      show ("\n### " ++ t ++ "\n").data = _
      rw [strData_append, strData_append]
      rfl
    unfold headerLineCount
    rw [hdata]
    exact key ['#', '#', '#', ' '] (by simp) rfl (by decide)

/-! ## Acquisition and conversion (app.py lines 17-98) -/

/-- Python's `str.replace` on character lists: scan left to right, replace
every non-overlapping occurrence of `pat`, never rescanning the replacement
text. The fuel argument (instantiated with the input length) only makes
the recursion structural; a step always consumes at least one character. -/
def replaceAux (pat rep : List Char) : Nat → List Char → List Char
  | _, [] => []
  | 0, l => l
  | fuel + 1, c :: rest =>
    if pat ≠ [] ∧ pat.isPrefixOf (c :: rest) then
      rep ++ replaceAux pat rep fuel (List.drop pat.length (c :: rest))
    else
      c :: replaceAux pat rep fuel rest

/-- Python's `content.replace(pat, rep)`. -/
def pyReplace (s pat rep : String) : String :=
  ⟨replaceAux pat.data rep.data s.data.length s.data⟩

/-- If the pattern does not occur in the input, `replaceAux` leaves it
unchanged. -/
theorem replaceAux_no_occurrence (pat rep : List Char) (fuel : Nat)
    (l : List Char) (h : ¬ pat <:+: l) : replaceAux pat rep fuel l = l := by
  induction fuel generalizing l with
  | zero => cases l <;> rfl
  | succ fuel ih =>
    cases l with
    | nil => rfl
    | cons c rest =>
      have hnp : ¬ (pat ≠ [] ∧ pat.isPrefixOf (c :: rest)) := by
        rintro ⟨-, hpre⟩
        exact h (List.IsPrefix.isInfix (List.isPrefixOf_iff_prefix.mp hpre))
      rw [replaceAux, if_neg hnp]
      have hrest : ¬ pat <:+: rest := fun hc => h (List.infix_cons hc)
      rw [ih rest hrest]

/-- If the pattern does not occur, `pyReplace` is the identity. -/
theorem pyReplace_no_occurrence (s pat rep : String)
    (h : ¬ pat.data <:+: s.data) : pyReplace s pat rep = s := by
  apply strExt
  show replaceAux pat.data rep.data s.data.length s.data = s.data
  exact replaceAux_no_occurrence pat.data rep.data s.data.length s.data h

/-- The math-delimiter rewriting of app.py lines 92-97, in source order. -/
def mathDelims (content : String) : String :=
  pyReplace (pyReplace (pyReplace (pyReplace content "\\(" "$")
    "\\)" "$") "\\[" "$$") "\\]" "$$"

/-- The outcome of the external world for one invocation: the upload slot
and link field, the HTTP response for the link, the filesystem contents
before the call, the uuid the call draws, and the markdown content Nougat
leaves in the output folder (`none` when the OCR produces nothing). -/
structure World where
  pdfFile : Option String
  pdfLink : String
  status : Nat
  fs : List String
  uuid : String
  ocrOutput : Option String

/-- A stage-distinguishing failure signal: the two `assert ... .exists()`
statements of `pdf_to_mmd` (app.py lines 78 and 88). -/
inductive StageError where
  | inputMissing (path : String)
  | outputMissing
deriving DecidableEq

/-- The unique download target name generated at app.py line 19. -/
def uniqueFilename (uuid : String) : String :=
  "input/downloaded_paper_" ++ uuid ++ ".pdf"

/-- `download_pdf_from_url` (app.py lines 17-31): returns the generated
filename unconditionally; the file is written only when the GET request
returns status 200. Result: the returned filename and the filesystem after
the call. -/
def download_pdf_from_url (w : World) : String × List String :=
  if w.status = 200 then
    (uniqueFilename w.uuid, uniqueFilename w.uuid :: w.fs)
  else
    (uniqueFilename w.uuid, w.fs)

/-- The advisory string returned when neither a file nor a link is
provided (app.py line 70). -/
def noDataMsg : String :=
  "No data provided. Upload a pdf file or provide a pdf link and try again!"

/-- `pdf_to_mmd` (app.py lines 54-98): acquire the document (download when
no file is uploaded; the upload branch sets the file name to the literal
string `not yet implemented`, app.py line 75), assert that the file
exists, run the OCR, assert that the OCR output exists, and return its
content with math delimiters rewritten. An `.error` value models an
uncaught `AssertionError`; `.ok` models a normal return. -/
def pdf_to_mmd (w : World) : Except StageError String :=
  match w.pdfFile with
  | none =>
    if w.pdfLink = "" then
      Except.ok noDataMsg
    else
      let dl := download_pdf_from_url w
      if dl.1 ∈ dl.2 then
        match w.ocrOutput with
        | some content => Except.ok (mathDelims content)
        | none => Except.error StageError.outputMissing
      else
        Except.error (StageError.inputMissing dl.1)
  | some _ =>
    if "not yet implemented" ∈ w.fs then
      match w.ocrOutput with
      | some content => Except.ok (mathDelims content)
      | none => Except.error StageError.outputMissing
    else
      Except.error (StageError.inputMissing "not yet implemented")

/-- The event chain of app.py lines 226-238: `generate_individual_summary`
runs only on a successful (non-raising) return of `pdf_to_mmd`. The `.ok`
payload carries the Section objects created and the summary values
yielded; an `.error` run creates neither. -/
def pipeline (w : World) (oracle : Sec → List String) :
    Except StageError (List Sec × List String) :=
  match pdf_to_mmd w with
  | Except.error e => Except.error e
  | Except.ok parsed =>
    Except.ok (split_text parsed, generate_individual_summary oracle parsed)

/-- The Section objects created during a run. -/
def createdSections (w : World) (oracle : Sec → List String) : List Sec :=
  match pipeline w oracle with
  | Except.error _ => []
  | Except.ok pr => pr.1

/-- A download whose GET request does not return 200 leaves the generated
filename absent from the filesystem, so the existence assertion of
`pdf_to_mmd` fails on it. -/
theorem pdf_to_mmd_download_fail (w : World) (hf : w.pdfFile = none)
    (hl : w.pdfLink ≠ "") (hst : w.status ≠ 200)
    (hfresh : uniqueFilename w.uuid ∉ w.fs) :
    pdf_to_mmd w =
      Except.error (StageError.inputMissing (uniqueFilename w.uuid)) := by
  simp only [pdf_to_mmd, hf, if_neg hl, download_pdf_from_url, if_neg hst]
  rw [if_neg hfresh]

/-! ## Claims -/

/-- Claim C1: for every markup document and every section index `k`, the
yield observed while section `k` has streamed `j ≥ 1` of its chunks equals
the concatenation of reconstructed-header-plus-completed-summary for the
sections before `k`, followed by section `k`'s reconstructed header and
its in-progress partial summary; at `j = ` the chunk count (the moment
section `k` completes) that value is exactly the combined document of the
first `k+1` sections. -/
theorem c1_combined_progress (oracle : Sec → List String) (parsed : String)
    (k : Nat) (sec : Sec) (chunks : List String)
    (hk : (sectionStreamPairs oracle parsed)[k]? = some (sec, chunks))
    (j : Nat) (hj1 : 1 ≤ j) (hj2 : j ≤ chunks.length) :
    (generate_individual_summary oracle parsed)[emOffset
        (sectionStreamPairs oracle parsed) k + j - 1]? =
      some (combinedUpTo (sectionStreamPairs oracle parsed) k ++
        header_to_append (pathList sec.path) ++ strJoin (chunks.take j)) ∧
    (j = chunks.length →
      combinedUpTo (sectionStreamPairs oracle parsed) k ++
          header_to_append (pathList sec.path) ++ strJoin (chunks.take j) =
        combinedUpTo (sectionStreamPairs oracle parsed) (k + 1)) := by
  constructor
  · have h := runSections_getElem? (sectionStreamPairs oracle parsed) "" k
      sec chunks hk j hj1 hj2
    rw [strEmpty_append] at h
    exact h
  · intro hjlen
    subst hjlen
    rw [List.take_length,
      combinedUpTo_succ (sectionStreamPairs oracle parsed) k sec chunks hk,
      sectionFull, strAppend_assoc]

/-- Oracle used by the witness of `c1_combined_progress`. -/
def oracleW1 : Sec → List String :=
  fun s => if s.path = emptyPath then ["p1"] else ["x", "y"]

theorem c1_combined_progress_witness :
    (sectionStreamPairs oracleW1 "# A\nbody")[1]? =
      some (⟨⟨some "A", none, none⟩, ["body"]⟩, ["x", "y"]) ∧
    (generate_individual_summary oracleW1 "# A\nbody")[2]? =
      some "p1\n# A\nxy" := by
  have hk : (sectionStreamPairs oracleW1 "# A\nbody")[1]? =
      some (⟨⟨some "A", none, none⟩, ["body"]⟩, ["x", "y"]) := by decide
  refine ⟨hk, ?_⟩
  have h := (c1_combined_progress oracleW1 "# A\nbody" 1
    ⟨⟨some "A", none, none⟩, ["body"]⟩ ["x", "y"] hk 2 (by decide) (by decide)).1
  rw [show emOffset (sectionStreamPairs oracleW1 "# A\nbody") 1 + 2 - 1 = 2
    from by decide] at h
  rw [h]
  decide

/-- Oracle whose stream contains an empty chunk. -/
def oracleW2 : Sec → List String := fun _ => ["a", ""]

/-- Claim C2 counterexample: the code yields even when a streamed chunk is
the empty string (app.py lines 165-166 append `s.content` and yield with
no emptiness guard), so a stream `["a", ""]` produces the consecutive
emissions `"a", "a"` and the second does not strictly extend the first. -/
theorem c2_counterexample :
    ¬ List.Chain' (fun a b : String => a.data <+: b.data ∧ a ≠ b)
      (generate_individual_summary oracleW2 "body") := by
  have he : generate_individual_summary oracleW2 "body" = ["a", "a"] := by decide
  rw [he]
  intro hch
  exact (List.chain'_cons.mp hch).1.2 rfl

/-- Claim C2 (amended): every later emission of
`generate_individual_summary` and of `generate_final_summary` has the
previous one as a prefix (a later emission never shrinks and never
retroactively changes earlier text); each increment strictly extends the
previous whenever every streamed chunk is non-empty. -/
theorem c2_monotone_growth (oracle : Sec → List String) (parsed : String)
    (finalChunks : List String) :
    List.Chain' (fun a b : String => a.data <+: b.data)
      (generate_individual_summary oracle parsed) ∧
    List.Chain' (fun a b : String => a.data <+: b.data)
      (generate_final_summary finalChunks) ∧
    ((∀ sec : Sec, ∀ c ∈ oracle sec, c ≠ "") →
      List.Chain' (fun a b : String => a.data <+: b.data ∧ a ≠ b)
        (generate_individual_summary oracle parsed)) ∧
    ((∀ c ∈ finalChunks, c ≠ "") →
      List.Chain' (fun a b : String => a.data <+: b.data ∧ a ≠ b)
        (generate_final_summary finalChunks)) := by
  have himp : ∀ a b : String,
      (a.data <+: b.data ∧ a.data.length < b.data.length) →
      (a.data <+: b.data ∧ a ≠ b) := by
    intro a b h
    refine ⟨h.1, fun he => absurd h.2 ?_⟩
    rw [he]
    exact lt_irrefl _
  refine ⟨runSections_chain _ _, emitChunks_chain _ _, ?_, ?_⟩
  · intro hne
    have hne2 : ∀ pr ∈ sectionStreamPairs oracle parsed, ∀ c ∈ pr.2, c ≠ "" := by
      intro pr hpr c hc
      rcases List.mem_map.mp hpr with ⟨s, -, hrw⟩
      rw [← hrw] at hc
      exact hne s c hc
    exact (runSections_chain_strict _ _ hne2).imp himp
  · intro hne
    exact (emitChunks_chain_strict _ _ hne).imp himp

/-- Oracle used by the witness of `c2_monotone_growth`. -/
def oracleW3 : Sec → List String := fun _ => ["ab"]

theorem c2_monotone_growth_witness :
    List.Chain' (fun a b : String => a.data <+: b.data ∧ a ≠ b)
      (generate_individual_summary oracleW3 "# T\nx") ∧
    List.Chain' (fun a b : String => a.data <+: b.data ∧ a ≠ b)
      (generate_final_summary ["q", "r"]) := by
  have h := c2_monotone_growth oracleW3 "# T\nx" ["q", "r"]
  refine ⟨h.2.2.1 ?_, h.2.2.2 ?_⟩
  · intro sec c hc
    have : c = "ab" := by simpa [oracleW3] using hc
    rw [this]
    decide
  · intro c hc
    rcases List.mem_cons.mp hc with hc | hc
    · rw [hc]; decide
    · have : c = "r" := by simpa using hc
      rw [this]; decide

/-- Claim C3: for every section of a split document whose header path is
non-empty (i.e. has a deepest entry), the text the aggregator appends
before the section's summary is exactly the markdown header line of the
deepest level present in the path; it contains exactly one header-marker
line, every level present in the path is at most the emitted one, and the
section's contribution places that single header line before the
summary. -/
theorem c3_header_reconstruction (doc : String) (sec : Sec)
    (hs : sec ∈ split_text doc) (lvl : Nat) (t : String)
    (hd : deepestEntry sec.path = some (lvl, t)) :
    header_to_append (pathList sec.path) = headerLine lvl t ∧
    headerLineCount (header_to_append (pathList sec.path)) = 1 ∧
    (∀ kv ∈ pathList sec.path, kv.1 ≤ lvl) ∧
    (∀ chunks, sectionFull sec chunks = headerLine lvl t ++ strJoin chunks) := by
  have h1 := header_to_append_deepest sec.path lvl t hd
  have hnn := deepestEntry_no_newline sec.path lvl t
    (split_text_pathOk doc sec hs) hd
  have hlvl := deepestEntry_level sec.path lvl t hd
  refine ⟨h1, ?_, deepestEntry_max sec.path lvl t hd, ?_⟩
  · rw [h1]
    exact headerLineCount_headerLine lvl t hlvl hnn
  · intro chunks
    rw [sectionFull, h1]

theorem c3_header_reconstruction_witness :
    header_to_append (pathList (⟨some "A", some "B", none⟩ : HeaderPath)) =
      "\n## B\n" ∧
    headerLineCount (header_to_append
      (pathList (⟨some "A", some "B", none⟩ : HeaderPath))) = 1 := by
  have h := c3_header_reconstruction "# A\n## B\nbody"
    ⟨⟨some "A", some "B", none⟩, ["body"]⟩ (by decide) 2 "B" (by decide)
  exact ⟨h.1.trans (by decide), h.2.1⟩

/-- Claim C4: concatenating the bodies of all sections produced by the
Structure Splitter, in order, yields exactly the non-header lines of the
document, in order: the split is a lossless partition of the document's
content, ignoring the header lines. -/
theorem c4_lossless_split (doc : String) :
    ((split_text doc).map Sec.body).flatten =
      (splitLinesStr doc).filter (fun l => (parseHeader l).isNone) := by
  unfold split_text
  rw [splitSectionsAux_bodies]
  simp

/-- Claim C5: a document none of whose lines is a header of level 1-3
splits into exactly one section, with an empty header path and a body
holding every line of the document; joining that body's lines recovers
the whole document exactly. -/
theorem c5_no_header_single_section (doc : String)
    (h : ∀ l ∈ splitLinesStr doc, parseHeader l = none) :
    split_text doc = [⟨emptyPath, splitLinesStr doc⟩] ∧
    joinLines (splitLinesStr doc) = doc := by
  refine ⟨?_, joinLines_splitLinesStr doc⟩
  unfold split_text
  rw [splitSectionsAux_no_header emptyPath [] (splitLinesStr doc) h]
  simp

theorem c5_no_header_single_section_witness :
    (∀ l ∈ splitLinesStr "plain\nmore", parseHeader l = none) ∧
    split_text "plain\nmore" = [⟨emptyPath, ["plain", "more"]⟩] := by
  have hh : ∀ l ∈ splitLinesStr "plain\nmore", parseHeader l = none := by decide
  refine ⟨hh, ?_⟩
  have h := (c5_no_header_single_section "plain\nmore" hh).1
  rw [h]
  decide

/-- Claim C6: when the OCR step produces no markup output (the
`output/....mmd` assertion at app.py line 88 fails), the run ends in an
error before the event chain reaches `generate_individual_summary`: the
pipeline result carries no section list and no emissions, and the created
Section objects are none. -/
theorem c6_conversion_failure_blocks (w : World) (oracle : Sec → List String)
    (hf : w.pdfFile = none) (hl : w.pdfLink ≠ "") (hst : w.status = 200)
    (ho : w.ocrOutput = none) :
    pipeline w oracle = Except.error StageError.outputMissing ∧
    createdSections w oracle = [] := by
  have hpdf : pdf_to_mmd w = Except.error StageError.outputMissing := by
    simp [pdf_to_mmd, hf, hl, download_pdf_from_url, hst, ho]
  have hpl : pipeline w oracle = Except.error StageError.outputMissing := by
    simp [pipeline, hpdf]
  exact ⟨hpl, by simp [createdSections, hpl]⟩

theorem c6_conversion_failure_blocks_witness :
    pipeline ⟨none, "http", 200, [], "u", none⟩ (fun _ => ["s"]) =
      Except.error StageError.outputMissing ∧
    createdSections ⟨none, "http", 200, [], "u", none⟩ (fun _ => ["s"]) = [] :=
  c6_conversion_failure_blocks ⟨none, "http", 200, [], "u", none⟩
    (fun _ => ["s"]) rfl (by decide) rfl rfl

/-- Claim C7 counterexample: an invocation with no uploaded file and an
empty link completes normally — `pdf_to_mmd` returns the advisory string
as an ordinary value, the event chain treats that as success, and
summarization is invoked on that non-document text — instead of
terminating with an error signal. -/
theorem c7_counterexample :
    pdf_to_mmd ⟨none, "", 404, [], "u", none⟩ = Except.ok noDataMsg ∧
    pipeline ⟨none, "", 404, [], "u", none⟩ (fun _ => ["s"]) =
      Except.ok ([⟨emptyPath, [noDataMsg]⟩], ["s"]) := by
  have h : pdf_to_mmd ⟨none, "", 404, [], "u", none⟩ = Except.ok noDataMsg := by
    simp [pdf_to_mmd]
  refine ⟨h, ?_⟩
  show (match pdf_to_mmd ⟨none, "", 404, [], "u", none⟩ with
    | Except.error e => Except.error e
    | Except.ok parsed => Except.ok (split_text parsed,
        generate_individual_summary (fun _ => ["s"]) parsed)) = _
  rw [h]
  show Except.ok (split_text noDataMsg,
    generate_individual_summary (fun _ => ["s"]) noDataMsg) = _
  rw [show split_text noDataMsg = [⟨emptyPath, [noDataMsg]⟩] from by decide,
    show generate_individual_summary (fun _ : Sec => ["s"]) noDataMsg = ["s"]
      from by decide]

/-- Claim C7 (amended): when the download request returns a non-success
status, the run terminates with the stage-distinguishing assertion error
naming the missing downloaded file; but when neither a file nor a link is
provided, `pdf_to_mmd` returns the advisory message as a normal value and
summarization is invoked on that text. -/
theorem c7_acquisition_failure (w : World) (oracle : Sec → List String) :
    (w.pdfFile = none → w.pdfLink ≠ "" → w.status ≠ 200 →
      uniqueFilename w.uuid ∉ w.fs →
      pipeline w oracle =
        Except.error (StageError.inputMissing (uniqueFilename w.uuid))) ∧
    (w.pdfFile = none → w.pdfLink = "" →
      pdf_to_mmd w = Except.ok noDataMsg ∧
      pipeline w oracle = Except.ok (split_text noDataMsg,
        generate_individual_summary oracle noDataMsg)) := by
  constructor
  · intro hf hl hst hfresh
    simp [pipeline, pdf_to_mmd_download_fail w hf hl hst hfresh]
  · intro hf hl
    have hpdf : pdf_to_mmd w = Except.ok noDataMsg := by
      simp [pdf_to_mmd, hf, hl]
    exact ⟨hpdf, by simp [pipeline, hpdf]⟩

theorem c7_acquisition_failure_witness :
    pipeline ⟨none, "http", 404, [], "u", some "c"⟩ (fun _ => ["s"]) =
      Except.error (StageError.inputMissing (uniqueFilename "u")) :=
  (c7_acquisition_failure ⟨none, "http", 404, [], "u", some "c"⟩
    (fun _ => ["s"])).1 rfl (by decide) (by decide) (by decide)

/-- Claim C8: the upload branch of `pdf_to_mmd` (app.py line 75) sets the
file name to the literal string `not yet implemented`, so whenever a file
is uploaded and no file of that literal name exists, the existence
assertion fails and no conversion of the uploaded document happens —
contradicting the documented behavior that an uploaded PDF is ingested
and converted. -/
theorem c8_upload_not_implemented (w : World) (f : String)
    (hf : w.pdfFile = some f) (hfs : "not yet implemented" ∉ w.fs) :
    pdf_to_mmd w =
      Except.error (StageError.inputMissing "not yet implemented") := by
  simp [pdf_to_mmd, hf, hfs]

theorem c8_upload_not_implemented_witness :
    pdf_to_mmd ⟨some "paper.pdf", "", 200, ["paper.pdf"], "u", some "c"⟩ =
      Except.error (StageError.inputMissing "not yet implemented") :=
  c8_upload_not_implemented ⟨some "paper.pdf", "", 200, ["paper.pdf"], "u",
    some "c"⟩ "paper.pdf" rfl (by decide)

/-- Claim C9: `download_pdf_from_url` returns the freshly generated
`input/...` filename on every call — also when the HTTP status is not
200, in which case the filesystem is left unchanged, so the fresh
filename names a nonexistent file and the caller's existence assertion in
`pdf_to_mmd` fails on exactly that path. The generated name is injective
in the drawn uuid. -/
theorem c9_download_always_returns (w : World) :
    (download_pdf_from_url w).1 = uniqueFilename w.uuid ∧
    (w.status ≠ 200 → (download_pdf_from_url w).2 = w.fs) ∧
    (∀ u1 u2 : String, uniqueFilename u1 = uniqueFilename u2 → u1 = u2) ∧
    (w.pdfFile = none → w.pdfLink ≠ "" → w.status ≠ 200 →
      uniqueFilename w.uuid ∉ w.fs →
      pdf_to_mmd w =
        Except.error (StageError.inputMissing (uniqueFilename w.uuid))) := by
  refine ⟨?_, ?_, ?_, pdf_to_mmd_download_fail w⟩
  · unfold download_pdf_from_url
    split <;> rfl
  · intro hst
    unfold download_pdf_from_url
    rw [if_neg hst]
  · intro u1 u2 h
    have hd := congrArg String.data h
    simp only [uniqueFilename, strData_append] at hd
    apply strExt
    have hd2 := List.append_cancel_right hd
    exact List.append_cancel_left hd2

theorem c9_download_always_returns_witness :
    (download_pdf_from_url ⟨none, "http", 500, [], "u9", some "c"⟩).2 = [] ∧
    pdf_to_mmd ⟨none, "http", 500, [], "u9", some "c"⟩ =
      Except.error (StageError.inputMissing (uniqueFilename "u9")) := by
  have h := c9_download_always_returns ⟨none, "http", 500, [], "u9", some "c"⟩
  exact ⟨h.2.1 (by decide),
    h.2.2.2 rfl (by decide) (by decide) (by decide)⟩

/-- Claim C10: on every successful run, the markup text returned by
`pdf_to_mmd` is the OCR output file's content with every occurrence of
backslash-open-paren and backslash-close-paren replaced by a dollar sign
and every occurrence of backslash-open-bracket and backslash-close-bracket
replaced by two dollar signs, the four replacements applied in that fixed
source order; when none of the four sequences occurs, the content is
returned unchanged. -/
theorem c10_math_delims (w : World) (content : String)
    (hf : w.pdfFile = none) (hl : w.pdfLink ≠ "") (hst : w.status = 200)
    (ho : w.ocrOutput = some content) :
    pdf_to_mmd w = Except.ok
      (pyReplace (pyReplace (pyReplace (pyReplace content "\\(" "$")
        "\\)" "$") "\\[" "$$") "\\]" "$$") ∧
    (¬ ("\\(".data <:+: content.data) → ¬ ("\\)".data <:+: content.data) →
      ¬ ("\\[".data <:+: content.data) → ¬ ("\\]".data <:+: content.data) →
      pdf_to_mmd w = Except.ok content) := by
  have h1 : pdf_to_mmd w = Except.ok (mathDelims content) := by
    simp [pdf_to_mmd, hf, hl, download_pdf_from_url, hst, ho]
  constructor
  · exact h1
  · intro hp1 hp2 hp3 hp4
    rw [h1]
    unfold mathDelims
    rw [pyReplace_no_occurrence content _ _ hp1,
      pyReplace_no_occurrence content _ _ hp2,
      pyReplace_no_occurrence content _ _ hp3,
      pyReplace_no_occurrence content _ _ hp4]

theorem c10_math_delims_witness :
    pdf_to_mmd ⟨none, "http", 200, [], "u", some "a\\(x\\)b\\[y\\]c"⟩ =
      Except.ok "a$x$b$$y$$c" := by
  have h := (c10_math_delims ⟨none, "http", 200, [], "u",
    some "a\\(x\\)b\\[y\\]c"⟩ "a\\(x\\)b\\[y\\]c" rfl (by decide) rfl rfl).1
  rw [h]
  exact congrArg Except.ok (by decide)

end ArxivResearcher
